import Mathlib

/-!
Verification of the muserv content-graph core against its natural-language
specification.  The Go sources are shallowly embedded: Go maps become
association lists, machine integers become `Nat`/`Int` with explicit
`% 2^32` (resp. `% 2^64`) where wrap-around matters, and string ordering is
the byte-wise order Go uses (embedded as an executable comparison over the
character list).
-/

namespace Muserv

/-- Modulus of Go unsigned 32-bit arithmetic. -/
def u32Mod : Nat := 4294967296

/-- Modulus of Go unsigned 64-bit arithmetic. -/
def u64Mod : Nat := 18446744073709551616

/-- Go conversion `uint32(x)` of a (possibly negative) 64-bit signed value:
two's-complement truncation, i.e. the value modulo 2^32. -/
def intToUint32 (x : Int) : Nat := (x % (u32Mod : Int)).toNat

/-- Read access `v, ok := m[k]` on a Go map, with the map modelled as an
association list (keys are kept duplicate-free by assocSet / assocDel). -/
def assocGet {κ ν : Type} [DecidableEq κ] : List (κ × ν) → κ → Option ν
  | [], _ => none
  | e :: rest, k => if e.fst == k then some e.snd else assocGet rest k

/-- Write access `m[k] = v` on a Go map modelled as an association list: the
entry is replaced in place when the key is present and appended otherwise. -/
def assocSet {κ ν : Type} [DecidableEq κ] : List (κ × ν) → κ → ν → List (κ × ν)
  | [], k, v => [(k, v)]
  | e :: rest, k, v => if e.fst == k then (k, v) :: rest else e :: assocSet rest k v

/-- `delete(m, k)` on a Go map modelled as an association list. -/
def assocDel {κ ν : Type} [DecidableEq κ] (m : List (κ × ν)) (k : κ) : List (κ × ν) :=
  m.filter (fun e => !(e.fst == k))

/-- Go string comparison `a < b` (byte-wise lexicographic), embedded as an
executable comparison of the character lists. -/
def charsLt : List Char → List Char → Bool
  | [], [] => false
  | [], _ :: _ => true
  | _ :: _, [] => false
  | x :: xs, y :: ys =>
    if x.toNat < y.toNat then true
    else if y.toNat < x.toNat then false
    else charsLt xs ys

/-- Go `a < b` on strings. -/
def goStrLt (a b : String) : Bool := charsLt a.data b.data

/-! ### C1: Browse index range and NumberReturned / TotalMatches
(internal/content/marshal.go `indices`, Content.Browse) -/

/-- Value of the BrowseFlag attribute for metadata requests. -/
def ModeMetadata : String := "BrowseMetadata"

/-- Value of the BrowseFlag attribute for children requests. -/
def ModeChildren : String := "BrowseDirectChildren"

/-- `indices` (marshal.go): computes the child index range `[first, last)`
from the Browse input attributes StartIndex (`start`), RequestedCount
(`wanted`) and the number of children (`len`). -/
def indices (start wanted : Nat) (len : Nat) : Nat × Nat :=
  let first := start
  let last := if wanted = 0 then len else (if start + wanted > len then len else start + wanted)
  (first, last)

/-- The part of an object's state that the NumberReturned / TotalMatches
computation of Content.Browse depends on: whether the object is a container
and its number of children. -/
structure BrowseNode where
  isCtr : Bool
  numChildren : Nat
deriving DecidableEq, Repr

/-- Content.Browse restricted to its `NumberReturned` / `TotalMatches`
outputs.  The DIDL-Lite payload is omitted; it has no influence on the two
counts.  The source computes the counts in the non-metadata case as
`returned, total = uint32(last-first), uint32(obj.(container).numChildren())`,
where `last - first` is 64-bit signed int subtraction. -/
def Browse (objects : List (Int × BrowseNode)) (id : Int) (mode : String)
    (start wanted : Nat) : Except String (Nat × Nat) :=
  match assocGet objects id with
  | none => .error "no object found for id"
  | some obj =>
    if mode = ModeChildren ∧ obj.isCtr = false then
      .error "object is no container but browse mode is BrowseDirectChildren"
    else
      if mode = ModeMetadata then
        .ok (1, 1)
      else
        let fl := if obj.isCtr then indices start wanted obj.numChildren else (0, 0)
        .ok (intToUint32 ((fl.2 : Int) - (fl.1 : Int)), obj.numChildren % u32Mod)

/-! ### C5: SystemUpdateID increment and overflow
(upnp Server.IncrSystemUpdateID, server main loop) -/

/-- Server.IncrSystemUpdateID: the old value of the state variable is read,
the variable is set to `old + count` in uint32 arithmetic, and overflow is
reported exactly when the value read back afterwards is strictly less than
the old value. -/
def incrSystemUpdateID (old count : Nat) : Nat × Bool :=
  let newVal := (old + count) % u32Mod
  (newVal, decide (newVal < old))

/-- The update-notification branch of the server main loop (server.go):
after an update with change count `count`, SystemUpdateID is increased and,
when the increment reports overflow, ServiceResetProcedure is run (once).
The second component counts how many times the reset procedure ran. -/
def serverUpdateBranch (sysUpdateID count : Nat) : Nat × Nat :=
  let r := incrSystemUpdateID sysUpdateID count
  (r.fst, if r.snd then 1 else 0)

/-! ### C6: file-info kinds and the update dispatch
(fileInfo / newPlaylistInfo, Content.procUpdates) -/

/-- The infoKind enumeration of the fileInfo interface. -/
inductive InfoKind where
  | infoNone
  | infoPlaylist
  | infoTrack
deriving DecidableEq, Repr

/-- baseInfo: path and lastChange of a file (the lazily computed os.Stat
parts are irrelevant to the kind dispatch and are not modelled). -/
structure BaseInfo where
  p : String
  lChg : Int
deriving DecidableEq, Repr

/-- playlistInfo embeds baseInfo and overrides kind() to infoPlaylist. -/
structure PlaylistInfo where
  base : BaseInfo
deriving DecidableEq, Repr

/-- trackInfo embeds baseInfo and overrides kind() to infoTrack. -/
structure TrackInfo where
  base : BaseInfo
deriving DecidableEq, Repr

/-- playlistInfo.kind(). -/
def playlistInfoKind (_ : PlaylistInfo) : InfoKind := .infoPlaylist

/-- trackInfo.kind(). -/
def trackInfoKind (_ : TrackInfo) : InfoKind := .infoTrack

/-- A value of the fileInfo interface: the dynamic type it holds. -/
inductive FileInfo where
  | ofPlaylist (pli : PlaylistInfo)
  | ofTrack (ti : TrackInfo)
deriving DecidableEq, Repr

/-- Dynamic dispatch of fileInfo.kind(). -/
def fileInfoKind : FileInfo → InfoKind
  | .ofPlaylist pli => playlistInfoKind pli
  | .ofTrack ti => trackInfoKind ti

/-- newPlaylistInfo, translated exactly from the source: its body is
`return trackInfo{newBaseInfo(path, lastChange)}`, so it constructs (and its
Go signature returns) a trackInfo value, not a playlistInfo value. -/
def newPlaylistInfo (path : String) (lastChange : Int) : TrackInfo :=
  ⟨⟨path, lastChange⟩⟩

/-- newTrackInfo. -/
def newTrackInfo (path : String) (lastChange : Int) : TrackInfo :=
  ⟨⟨path, lastChange⟩⟩

/-- Which handler the `switch fi.kind()` in Content.procUpdates selects for
one fileInfo. -/
inductive UpdateHandler where
  | playlistHandler
  | trackHandler
  | skipped
  | unknownKind
deriving DecidableEq, Repr

/-- The kind dispatch of Content.procUpdates: infoPlaylist goes to the
playlist handler when ShowPlaylists is set (and is skipped otherwise),
infoTrack goes to the track handler, anything else is logged as unknown. -/
def procUpdateDispatch (showPlaylists : Bool) (fi : FileInfo) : UpdateHandler :=
  match fileInfoKind fi with
  | .infoPlaylist => if showPlaylists then .playlistHandler else .skipped
  | .infoTrack => .trackHandler
  | .infoNone => .unknownKind

/-! ### C2: the three-way diff of the scan updater
(internal/content/updater.go `diff`) -/

/-- The data of one fileInfo entry that `diff` inspects: its path and its
lastChange time (unix seconds, int64). -/
structure FI where
  fpath : String
  fLastChange : Int
deriving DecidableEq, Repr

/-- Strict ascending sortedness by path, the precondition `diff` relies on
(both inputs are sorted by path before `diff` is called). -/
def pathSorted : List FI → Bool
  | [] => true
  | [_] => true
  | a :: b :: rest => goStrLt a.fpath b.fpath && pathSorted (b :: rest)

/-- The index loop of `diff` (updater.go).  The loop runs while
`i < len(fiCnt) || j < len(fiDir)`; the three guarded branches append to
fiAdd (content path greater, or content exhausted), append to fiDel
(directory path greater, or directory exhausted) or, on equal paths,
append to both exactly when the disk file is newer. -/
def diffLoop : List FI → List FI → List FI × List FI
  | [], [] => ([], [])
  | [], d :: ds =>
    let r := diffLoop [] ds
    (r.1, d :: r.2)
  | c :: cs, [] =>
    let r := diffLoop cs []
    (c :: r.1, r.2)
  | c :: cs, d :: ds =>
    if goStrLt d.fpath c.fpath then
      let r := diffLoop (c :: cs) ds
      (r.1, d :: r.2)
    else if goStrLt c.fpath d.fpath then
      let r := diffLoop cs (d :: ds)
      (c :: r.1, r.2)
    else
      let r := diffLoop cs ds
      if c.fLastChange < d.fLastChange then (c :: r.1, d :: r.2) else r
termination_by cnt dir => cnt.length + dir.length

/-- `diff` (updater.go): the two special cases for an empty side, then the
merge loop. -/
def diff (fiCnt fiDir : List FI) : List FI × List FI :=
  if fiCnt.length = 0 then ([], fiDir)
  else if fiDir.length = 0 then (fiCnt, [])
  else diffLoop fiCnt fiDir

/-- Lookup of a file entry by path (used only to state the specification of
`diff`). -/
def findByPath (fis : List FI) (p : String) : Option FI :=
  fis.find? (fun fi => decide (fi.fpath = p))

/-- Specification predicate, following the spec text: a content entry is
deleted iff its path is absent from disk or the disk file with the same
path has a strictly greater lastChange. -/
def specDelP (dir : List FI) (c : FI) : Bool :=
  match findByPath dir c.fpath with
  | none => true
  | some d => decide (c.fLastChange < d.fLastChange)

/-- Specification predicate, following the spec text: a disk entry is added
iff its path is absent from the content or the content entry with the same
path has a strictly smaller lastChange. -/
def specAddP (cnt : List FI) (d : FI) : Bool :=
  match findByPath cnt d.fpath with
  | none => true
  | some c => decide (c.fLastChange < d.fLastChange)

/-! ### C3 and C8: the child-reference table of a container
(internal/content/object.go `refs`) -/

/-- config.Comparison: a strict "less" function on strings. -/
abbrev Comparison := String → String → Bool

/-- The ascending comparison `func(a, b string) bool { return a < b }`
(config.assembleSortAttr for "+", and the default comparison of newCtr). -/
def cmpAsc : Comparison := fun a b => goStrLt a b

/-- The descending comparison `func(a, b string) bool { return a > b }`
(config.assembleSortAttr for "-"). -/
def cmpDesc : Comparison := fun a b => goStrLt b a

/-- FNV-1a offset basis. -/
def fnvOffset : Nat := 14695981039346656037

/-- FNV-1a 64-bit prime. -/
def fnvPrime : Nat := 1099511628211

/-- go-utils HashUint64: the 64-bit FNV-1a hash of the formatted string
(`fnv.New64a`).  The hash is folded over the string's code points, which
coincides with the byte-wise hash for ASCII input; only equality of hash
values for equal inputs matters below. -/
def hashUint64 (s : String) : Nat :=
  s.data.foldl (fun h c => ((h ^^^ c.toNat) * fnvPrime) % u64Mod) fnvOffset

/-- The per-object data that the child table stores and the sort inspects:
object ID (obj.i), object key (obj.k) and sort-field vector (obj.sf). -/
structure SObj where
  oid : Int
  okey : Nat
  sf : List String
deriving DecidableEq, Repr

/-- obj.sortField(i), i.e. `me.sf[i]`.  The source panics when `i` is out of
range; the embedding returns "" there (all uses stay in range). -/
def sortField (o : SObj) (i : Nat) : String := o.sf.getD i ""

/-- The comparison closure passed to sort.Slice in refs.item:
walk the comparison vector (with running sort-field index k); on the first
index where the sort fields differ return that comparison's verdict, and
return false when all comparisons are exhausted. -/
def lexLessGo (a b : SObj) : List Comparison → Nat → Bool
  | [], _ => false
  | cmp :: rest, k =>
    if sortField a k = sortField b k then lexLessGo a b rest (k + 1)
    else cmp (sortField a k) (sortField b k)

/-- The full "less" function of refs.item's sort over a comparison vector. -/
def lexLess (comps : List Comparison) (a b : SObj) : Bool := lexLessGo a b comps 0

/-- refs (object.go): child objects mapped by ID and by key, the lazily
built ordered sequence, and the comparison vector. -/
structure Refs where
  byID : List (Int × SObj)
  byKey : List (Nat × SObj)
  inOrder : List SObj
  comps : List Comparison

/-- newRefs. -/
def newRefs (comps : List Comparison) : Refs := ⟨[], [], [], comps⟩

/-- refs.add: insert into both maps; the ordered sequence is cleared when it
was non-empty. -/
def refsAdd (r : Refs) (o : SObj) : Refs :=
  { r with
    byID := assocSet r.byID o.oid o
    byKey := assocSet r.byKey o.okey o
    inOrder := if r.inOrder.length > 0 then [] else r.inOrder }

/-- refs.del: remove from both maps and clear the ordered sequence. -/
def refsDel (r : Refs) (o : SObj) : Refs :=
  { r with
    byID := assocDel r.byID o.oid
    byKey := assocDel r.byKey o.okey
    inOrder := [] }

/-- refs.len. -/
def refsLen (r : Refs) : Nat := r.byID.length

/-- The non-strict order a correct sort with `lexLess` establishes between
adjacent elements: `b` is not less than `a`.  Go's sort.Slice guarantees
exactly that the resulting slice is sorted with respect to the less
function; it does not guarantee stability. -/
def refsLe (comps : List Comparison) (a b : SObj) : Bool := ! lexLess comps b a

/-- The ordered sequence refs.item materializes on demand: when the cache is
empty, the byID values are collected and sorted by the lexLess closure
(modelled by mergeSort, one implementation fulfilling sort.Slice's sorted
contract; the byID iteration order is unspecified in Go and irrelevant to
the sortedness claim). -/
def refsRebuild (r : Refs) : List SObj :=
  if r.inOrder.length = 0 then
    (r.byID.map (fun e => e.snd)).mergeSort (refsLe r.comps)
  else r.inOrder

/-- refs.item's result: element `index` of the (re)built ordered sequence. -/
def refsItem (r : Refs) (index : Nat) : SObj := (refsRebuild r).getD index ⟨0, 0, []⟩

/-- The mutations a container performs on its child table, plus an indexed
access (childByIndex), which stores the rebuilt ordered sequence. -/
inductive RefsOp where
  | addObj (o : SObj)
  | delObj (o : SObj)
  | access (index : Nat)

/-- One step of the child-table state. -/
def refsStep (r : Refs) : RefsOp → Refs
  | .addObj o => refsAdd r o
  | .delObj o => refsDel r o
  | .access _ => { r with inOrder := refsRebuild r }

/-- The child table after a sequence of operations starting from newRefs. -/
def refsRun (comps : List Comparison) (ops : List RefsOp) : Refs :=
  ops.foldl refsStep (newRefs comps)

/-- track.newTrackRef under a hierarchy: the trackRef item's obj gets
`key = HashUint64(track title)` and newObj's default sort field (the
lower-cased name); the claim-relevant part is the key. -/
def newTrackRefObj (trefId : Int) (title : String) : SObj :=
  ⟨trefId, hashUint64 title, [title.toLower]⟩

/-- The track-level branch of Content.addTrackToSubHierarchy
(hierarchies.go): a fresh trackRef is created and added via
`ctr.addChild(tRef)` with no childByKey check. -/
def addTrackRefToCtr (ctr : Refs) (trefId : Int) (title : String) : Refs :=
  refsAdd ctr (newTrackRefObj trefId title)

/-- The alignment invariant of a child table: the key map holds exactly the
id map's objects re-keyed by their object key, entry ids are stored under
the object's id, and neither ids nor keys repeat. -/
def alignedRefs (r : Refs) : Prop :=
  r.byKey = r.byID.map (fun e => (e.snd.okey, e.snd)) ∧
  (r.byID.map (fun e => e.fst)).Nodup ∧
  (r.byID.map (fun e => e.snd.okey)).Nodup ∧
  ∀ e ∈ r.byID, e.fst = e.snd.oid

/-! ### C4: container-update tracing
(ctr.addChild / ctr.delChild, Content.traceUpdate) -/

/-- The update-count delta map id → uint32 (Content.updCounts). -/
abbrev UpdMap := List (Int × Nat)

/-- Content.traceUpdate: set the counter to 1 when the id is absent,
otherwise increment it (uint32 arithmetic). -/
def traceUpdate (m : UpdMap) (id : Int) : UpdMap :=
  match assocGet m id with
  | none => assocSet m id 1
  | some v => assocSet m id ((v + 1) % u32Mod)

/-- One structural child-table operation of some container: ctr.addChild or
ctr.delChild.  Both end in `me.cnt.traceUpdate(me.i)`; only the delta-map
effect is modelled here (the child-table effect is the refs model above). -/
inductive ChildOp where
  | addChild (ctrId : Int)
  | delChild (ctrId : Int)

/-- The container id an operation acts on. -/
def childOpCtr : ChildOp → Int
  | .addChild i => i
  | .delChild i => i

/-- The delta-map effect of one add-child / remove-child. -/
def applyChildOp (m : UpdMap) (op : ChildOp) : UpdMap := traceUpdate m (childOpCtr op)

/-- The delta map after a sequence of operations (the map is re-created
empty at the start of every update cycle). -/
def applyChildOps (m : UpdMap) (ops : List ChildOp) : UpdMap := ops.foldl applyChildOp m

/-- Sum of all values of the delta map. -/
def sumUpdCounts (m : UpdMap) : Nat := (m.map (fun e => e.snd)).sum

/-- Number of operations acting on a given container in a sequence. -/
def countOpsFor (ops : List ChildOp) (id : Int) : Nat :=
  (ops.filter (fun op => childOpCtr op == id)).length

/-! ### C7: the album specialization of add-child / remove-child
(object.go album.addChild / album.delChild) -/

/-- The track data album.addChild / album.delChild inspect: object id and
lastChange (unix seconds, int64). -/
structure ATrack where
  tid : Int
  tLastChange : Int
deriving DecidableEq, Repr

/-- The argument of album.addChild: either a *track, or an object of some
other dynamic type (the reflect.TypeOf check fails for it). -/
inductive AObj where
  | isTrack (t : ATrack)
  | notTrack (oid : Int)
deriving DecidableEq, Repr

/-- The album state the two methods touch: object id, the byID values of the
child table, and lastChange. -/
structure Album where
  aid : Int
  children : List ATrack
  aLastChange : Int
deriving DecidableEq, Repr

/-- Result of one album child operation: the new album state, the new delta
map, and whether invalidateOrder was called on the parent container of every
albumRef pointing at the album (the `for _, aRef := range me.refs` loop). -/
structure AlbumStep where
  album : Album
  updCounts : UpdMap
  invalidated : Bool
deriving Repr

/-- me.children.add(obj) restricted to the byID values: in-place replacement
when the id is present, append otherwise.  (The byKey side of the child
table is covered by the refs model above and does not influence
lastChange.) -/
def childAdd : List ATrack → ATrack → List ATrack
  | [], t => [t]
  | c :: rest, t => if c.tid == t.tid then t :: rest else c :: childAdd rest t

/-- me.children.del(obj) restricted to the byID values. -/
def childDel (l : List ATrack) (t : ATrack) : List ATrack :=
  l.filter (fun c => !(c.tid == t.tid))

/-- The recomputation loop of album.delChild: `me.lastChange = 0`, then each
remaining child raises the value when its lastChange is greater — i.e. the
maximum of the children's lastChange values with floor 0 (the loop order is
irrelevant to a maximum). -/
def maxLC (l : List ATrack) : Int :=
  l.foldr (fun c acc => max c.tLastChange acc) 0

/-- album.addChild: a non-track argument is rejected (only a warning is
logged, nothing changes); for a track the child is added, traceUpdate is
called, and when the track's lastChange exceeds the album's, lastChange is
raised and every albumRef parent's order is invalidated. -/
def albumAddChild (a : Album) (m : UpdMap) : AObj → AlbumStep
  | .notTrack _ => ⟨a, m, false⟩
  | .isTrack t =>
    let children := childAdd a.children t
    let m2 := traceUpdate m a.aid
    if a.aLastChange < t.tLastChange then
      ⟨⟨a.aid, children, t.tLastChange⟩, m2, true⟩
    else
      ⟨⟨a.aid, children, a.aLastChange⟩, m2, false⟩

/-- album.delChild: the track is removed and traceUpdate called; when the
removed track's lastChange equals the album's, lastChange is recomputed from
the remaining children and every albumRef parent's order is invalidated. -/
def albumDelChild (a : Album) (m : UpdMap) (t : ATrack) : AlbumStep :=
  let children := childDel a.children t
  let m2 := traceUpdate m a.aid
  if t.tLastChange == a.aLastChange then
    ⟨⟨a.aid, children, maxLC children⟩, m2, true⟩
  else
    ⟨⟨a.aid, children, a.aLastChange⟩, m2, false⟩

/-- The lastChange invariant of an album: lastChange equals the maximum of
the children's lastChange values with floor 0. -/
def albumLCInv (a : Album) : Prop := a.aLastChange = maxLC a.children

/-! ### C9: ResetCtrUpdCounts and the delta map
(Content.ResetCtrUpdCounts, ctr.resetUpdCount, Content.ContainerUpdateIDs) -/

/-- The object tree as resetUpdCount traverses it: containers carry their
uint32 update counter and their children; items carry no counter. -/
inductive CNode where
  | ctr (updCount : Nat) (children : List CNode)
  | itm
deriving Repr

/-- object.isContainer. -/
def isCtr : CNode → Bool
  | .ctr _ _ => true
  | .itm => false

mutual

/-- ctr.resetUpdCount: zero the own counter, then recursively reset every
child that is a container (childByIndex enumerates all children; their sort
order is irrelevant to resetting every counter). -/
def resetUpdCount : CNode → CNode
  | .ctr _ children => .ctr 0 (resetChildren children)
  | .itm => .itm

/-- The child loop of resetUpdCount. -/
def resetChildren : List CNode → List CNode
  | [] => []
  | c :: cs => (if isCtr c then resetUpdCount c else c) :: resetChildren cs

end

mutual

/-- Every container in the tree has update counter 0. -/
def allCtrZero : CNode → Bool
  | .ctr u children => u == 0 && allChildrenZero children
  | .itm => true

/-- allCtrZero over a child list. -/
def allChildrenZero : List CNode → Bool
  | [] => true
  | c :: cs => allCtrZero c && allChildrenZero cs

end

/-- Content.ContainerUpdateIDs: concatenate ",id,count" for every delta-map
entry and strip the leading comma. -/
def containerUpdateIDs (m : UpdMap) : String :=
  let updates := m.foldl (fun acc e => acc ++ "," ++ toString e.fst ++ "," ++ toString e.snd) ""
  if updates.length > 0 then updates.drop 1 else updates

/-- The content state ResetCtrUpdCounts touches: the root object tree and
the update-count delta map. -/
structure ContentLite where
  root : CNode
  updCounts : UpdMap

/-- Content.ResetCtrUpdCounts: its whole body is `me.root.resetUpdCount()`;
the delta map is not touched. -/
def resetCtrUpdCounts (st : ContentLite) : ContentLite :=
  { st with root := resetUpdCount st.root }

/-! ### C10: Content.delTrack with an unknown path -/

/-- The per-object graph data that delTrack's deletions traverse: each node
records its parent pointer, its child-table ids and (for tracks) its
lastChange. -/
structure GNode where
  gid : Int
  gparent : Option Int
  gchildIds : List Int
  gLastChange : Int
deriving DecidableEq, Repr

/-- The track-map entry delTrack reads: the track's object id, its album
key, its lastChange and the ids of its track-references (t.refs). -/
structure DTrack where
  dtId : Int
  dtAlbumKey : Nat
  dtLastChange : Int
  dtRefIds : List Int
deriving DecidableEq, Repr

/-- The Content state delTrack touches. -/
structure DState where
  objects : List (Int × GNode)
  tracks : List (String × DTrack)
  albums : List (Nat × Int)
  playlists : List (String × Int)
  folders : List (String × Int)
  updCounts : UpdMap
  count : Nat
deriving DecidableEq, Repr

/-- Modify the object with the given id in place (no-op when absent). -/
def objUpdate (objs : List (Int × GNode)) (id : Int) (f : GNode → GNode) :
    List (Int × GNode) :=
  objs.map (fun e => if e.fst == id then (e.fst, f e.snd) else e)

/-- ctr.delChild(obj) on the graph table: drop the child id from the
parent's child table, clear the child's parent pointer and trace the
update. -/
def ctrDelChildG (st : DState) (pid cid : Int) : DState :=
  { st with
    objects :=
      objUpdate (objUpdate st.objects pid
        (fun n => { n with gchildIds := n.gchildIds.filter (fun i => !(i == cid)) }))
        cid (fun n => { n with gparent := none })
    updCounts := traceUpdate st.updCounts pid }

/-- album.delChild(t) on the graph table: remove the child and trace the
update; when the removed track carried the album's lastChange, recompute it
from the remaining children (floor 0).  The albumRef order invalidation
only clears cached child orderings, which are not part of this state. -/
def albumDelChildG (st : DState) (aid : Int) (t : DTrack) : DState :=
  let st1 := ctrDelChildG st aid t.dtId
  match assocGet st1.objects aid with
  | none => st1
  | some aNode =>
    if t.dtLastChange == aNode.gLastChange then
      let newLC := aNode.gchildIds.foldr
        (fun cid acc =>
          match assocGet st1.objects cid with
          | some c => max c.gLastChange acc
          | none => acc) 0
      { st1 with
        objects := objUpdate st1.objects aid (fun n => { n with gLastChange := newLC }) }
    else st1

/-- The per-reference loop of delTrack: starting at obj = the trackRef with
parent = tRef.parent(), run while the parent has itself a parent: delete
obj from the object map, count the deletion, detach obj from the parent,
and stop as soon as the parent keeps other children; otherwise continue one
level up.  The fuel bounds the ascent (the parent chain is shorter than the
object table). -/
def trefWalk : Nat → DState → Int → Option Int → DState
  | 0, st, _, _ => st
  | _ + 1, st, _, none => st
  | fuel + 1, st, objId, some pid =>
    match assocGet st.objects pid with
    | none => st
    | some pNode =>
      match pNode.gparent with
      | none => st
      | some _ =>
        let st1 := { st with
          objects := assocDel st.objects objId
          count := (st.count + 1) % u32Mod }
        let st2 := ctrDelChildG st1 pid objId
        match assocGet st2.objects pid with
        | none => st2
        | some pNode2 =>
          if pNode2.gchildIds.length > 0 then st2
          else trefWalk fuel st2 pid pNode2.gparent

/-- The `for _, tRef := range t.refs` loop of delTrack. -/
def trefWalkAll (st : DState) (refIds : List Int) : DState :=
  refIds.foldl
    (fun s rid =>
      match assocGet s.objects rid with
      | none => s
      | some rNode => trefWalk (s.objects.length + 1) s rid rNode.gparent)
    st

/-- The body of Content.delTrack once the track is found: count it, remove
it from the track and object maps, remove it from its album (deleting the
album when it became childless), then run the per-reference hierarchy
walk. -/
def delTrackKnown (st : DState) (path : String) (t : DTrack) : DState :=
  let st1 := { st with
    count := (st.count + 1) % u32Mod
    tracks := assocDel st.tracks path
    objects := assocDel st.objects t.dtId }
  let st2 :=
    match assocGet st1.albums t.dtAlbumKey with
    | none => st1
    | some aid =>
      let st3 := albumDelChildG st1 aid t
      match assocGet st3.objects aid with
      | none => st3
      | some aNode =>
        if aNode.gchildIds.length == 0 then
          { st3 with
            objects := assocDel st3.objects aid
            albums := assocDel st3.albums t.dtAlbumKey
            count := (st3.count + 1) % u32Mod }
        else st3
  trefWalkAll st2 t.dtRefIds

/-- Content.delTrack: look the path up in the track map; when it is absent
the function returns immediately (and err is nil on every path). -/
def delTrack (st : DState) (tiPath : String) : DState :=
  match assocGet st.tracks tiPath with
  | none => st
  | some t => delTrackKnown st tiPath t

end Muserv

namespace Muserv

/-! ## Theorems -/

/-- C1 (amended): for an id mapped to a container with `n` children, Browse
in mode BrowseDirectChildren computes `first = startIndex`,
`last = min(startIndex + requestedCount, n)` with `requestedCount = 0`
meaning all remaining, and returns
`NumberReturned = (last - first) mod 2^32` and `TotalMatches = n`; whenever
`startIndex ≤ n` this is the plain difference `last - first` (0 for
`startIndex = n`), while for `startIndex > n` the int difference is negative
and the uint32 conversion wraps.  In mode BrowseMetadata both counts are 1. -/
theorem c1_browse_counts (objects : List (Int × BrowseNode)) (id : Int)
    (start wanted n : Nat) (hobj : assocGet objects id = some ⟨true, n⟩)
    (hn : n < u32Mod) :
    Browse objects id ModeChildren start wanted =
      .ok (intToUint32 (((indices start wanted n).2 : Int) - ((indices start wanted n).1 : Int)), n) ∧
    (start ≤ n →
      Browse objects id ModeChildren start wanted =
        .ok ((indices start wanted n).2 - (indices start wanted n).1, n)) ∧
    (start = n → Browse objects id ModeChildren start wanted = .ok (0, n)) ∧
    Browse objects id ModeMetadata start wanted = .ok (1, 1) := by
  have hn4 : n < 4294967296 := hn
  have hmod : n % u32Mod = n := Nat.mod_eq_of_lt hn
  have hstr : ¬ (ModeChildren = ModeMetadata) := by decide
  have hone : Browse objects id ModeChildren start wanted =
      .ok (intToUint32 (((indices start wanted n).2 : Int) - ((indices start wanted n).1 : Int)), n) := by
    simp only [Browse, hobj]
    rw [if_neg (by simp), if_neg hstr]
    simp [hmod]
  have hfst : (indices start wanted n).1 = start := rfl
  have hsnd : (indices start wanted n).2 ≤ n := by
    simp only [indices]
    split
    · exact le_refl n
    · split
      · exact le_refl n
      · omega
  refine ⟨hone, ?_, ?_, ?_⟩
  · intro hstart
    rw [hone]
    have hle : start ≤ (indices start wanted n).2 := by
      simp only [indices]
      split
      · exact hstart
      · split
        · exact hstart
        · omega
    have hcast : intToUint32 (((indices start wanted n).2 : Int) - ((indices start wanted n).1 : Int)) =
        (indices start wanted n).2 - (indices start wanted n).1 := by
      rw [hfst, intToUint32]
      have hsub : (((indices start wanted n).2 : Int) - (start : Int)) =
          (((indices start wanted n).2 - start : Nat) : Int) := by
        omega
      rw [hsub]
      have hlt : ((((indices start wanted n).2 - start : Nat)) : Int) < ((u32Mod : Nat) : Int) := by
        have : (indices start wanted n).2 - start < 4294967296 := by omega
        exact_mod_cast this
      rw [Int.emod_eq_of_lt (by positivity) hlt]
      exact Int.toNat_natCast _
    rw [hcast, hfst]
  · intro hstart
    rw [hone]
    have hz : (indices start wanted n).2 = start := by
      simp only [indices]
      split
      · omega
      · split <;> omega
    rw [hz, hfst]
    simp [intToUint32]
  · simp only [Browse, hobj]
    simp

/-- C1 witness: concrete instance of the amended Browse theorem: a container
with 2 children, startIndex 1, requestedCount 5. -/
theorem c1_browse_counts_witness :
    assocGet [((0 : Int), (⟨true, 2⟩ : BrowseNode))] 0 = some ⟨true, 2⟩ ∧
    Browse [((0 : Int), (⟨true, 2⟩ : BrowseNode))] 0 ModeChildren 1 5 =
      .ok ((indices 1 5 2).2 - (indices 1 5 2).1, 2) :=
  ⟨by decide, (c1_browse_counts [((0 : Int), ⟨true, 2⟩)] 0 1 5 2 (by decide) (by decide)).2.1 (by decide)⟩

/-- C1 counterexample: for a container with 0 children, startIndex 1 (which
is ≥ the number of children) and requestedCount 0, Browse reports
NumberReturned = 4294967295 (the uint32 wrap of -1), not 0 as the claim
states. -/
theorem c1_browse_counts_counterexample :
    Browse [((0 : Int), (⟨true, 0⟩ : BrowseNode))] 0 ModeChildren 1 0 =
      .ok (4294967295, 0) ∧ (4294967295 : Nat) ≠ 0 := by
  constructor
  · rfl
  · decide

/-- C5: IncrSystemUpdateID replaces the SystemUpdateID value `old` by
`(old + count) mod 2^32` and reports overflow exactly when the new value is
strictly less than `old`, which for in-range values happens exactly when
`old + count ≥ 2^32`; on overflow the server loop runs the service-reset
procedure exactly once.  Concretely, from `2^32 - 3` with count 10 the
post-state value is 7 and exactly one reset is executed. -/
theorem c5_system_update_id_overflow (old count : Nat)
    (hold : old < u32Mod) (hcount : count < u32Mod) :
    (incrSystemUpdateID old count).1 = (old + count) % u32Mod ∧
    ((incrSystemUpdateID old count).2 = true ↔ u32Mod ≤ old + count) ∧
    serverUpdateBranch old count =
      ((old + count) % u32Mod, if u32Mod ≤ old + count then 1 else 0) ∧
    serverUpdateBranch (u32Mod - 3) 10 = (7, 1) := by
  have hiff : ((old + count) % u32Mod < old) ↔ u32Mod ≤ old + count := by
    rcases Nat.lt_or_ge (old + count) u32Mod with h | h
    · rw [Nat.mod_eq_of_lt h]
      omega
    · have h2 : old + count < u32Mod + u32Mod := by omega
      rw [Nat.mod_eq_sub_mod h, Nat.mod_eq_of_lt (by omega)]
      have : 0 < u32Mod := by norm_num [u32Mod]
      omega
  refine ⟨rfl, ?_, ?_, ?_⟩
  · simpa [incrSystemUpdateID] using hiff
  · simp only [serverUpdateBranch, incrSystemUpdateID]
    refine Prod.ext rfl ?_
    by_cases h : u32Mod ≤ old + count
    · simp [hiff.mpr h, h]
    · have := hiff
      simp only [decide_eq_true_eq]
      rw [if_neg (by omega), if_neg h]
  · decide

/-- C5 witness: the overflow theorem applied at the claim's concrete input
`SystemUpdateID = 2^32 - 3`, count 10. -/
theorem c5_system_update_id_overflow_witness :
    ((incrSystemUpdateID (u32Mod - 3) 10).2 = true ↔ u32Mod ≤ (u32Mod - 3) + 10) ∧
    serverUpdateBranch (u32Mod - 3) 10 = (7, 1) :=
  ⟨(c5_system_update_id_overflow (u32Mod - 3) 10 (by decide) (by decide)).2.1,
   (c5_system_update_id_overflow (u32Mod - 3) 10 (by decide) (by decide)).2.2.2⟩

/-- Characterization of the Go string comparison on cons cells. -/
theorem charsLt_cons (x y : Char) (xs ys : List Char) :
    charsLt (x :: xs) (y :: ys) =
      (decide (x.toNat < y.toNat) || (decide (x.toNat = y.toNat) && charsLt xs ys)) := by
  simp only [charsLt]
  split_ifs with h1 h2
  · simp [h1]
  · have hne : ¬ x.toNat = y.toNat := by omega
    simp [h1, hne]
  · have heq : x.toNat = y.toNat := by omega
    simp [h1, heq]

/-- The Go string comparison is irreflexive. -/
theorem charsLt_irrefl (l : List Char) : charsLt l l = false := by
  induction l with
  | nil => rfl
  | cons x xs ih => simp [charsLt_cons, ih]

/-- The Go string comparison is transitive. -/
theorem charsLt_trans {a b c : List Char} (h1 : charsLt a b = true) (h2 : charsLt b c = true) :
    charsLt a c = true := by
  induction a generalizing b c with
  | nil =>
    cases b with
    | nil => exact absurd h1 (by simp [charsLt])
    | cons y ys =>
      cases c with
      | nil => exact absurd h2 (by simp [charsLt])
      | cons z zs => rfl
  | cons x xs ih =>
    cases b with
    | nil => exact absurd h1 (by simp [charsLt])
    | cons y ys =>
      cases c with
      | nil => exact absurd h2 (by simp [charsLt])
      | cons z zs =>
        rw [charsLt_cons] at h1 h2 ⊢
        simp only [Bool.or_eq_true, Bool.and_eq_true, decide_eq_true_eq] at h1 h2 ⊢
        rcases h1 with h1 | ⟨h1e, h1r⟩
        · rcases h2 with h2 | ⟨h2e, h2r⟩
          · exact Or.inl (by omega)
          · exact Or.inl (by omega)
        · rcases h2 with h2 | ⟨h2e, h2r⟩
          · exact Or.inl (by omega)
          · exact Or.inr ⟨by omega, ih h1r h2r⟩

/-- Char values with equal code points are equal. -/
theorem char_toNat_inj {x y : Char} (h : x.toNat = y.toNat) : x = y := by
  have hx := Char.ofNat_toNat x
  rw [h, Char.ofNat_toNat] at hx
  exact hx.symm

/-- Two character lists that are mutually not-less are equal. -/
theorem charsLt_eq_of_not {a b : List Char} (h1 : charsLt a b = false)
    (h2 : charsLt b a = false) : a = b := by
  induction a generalizing b with
  | nil =>
    cases b with
    | nil => rfl
    | cons y ys => exact absurd h1 (by simp [charsLt])
  | cons x xs ih =>
    cases b with
    | nil => exact absurd h2 (by simp [charsLt])
    | cons y ys =>
      rw [charsLt_cons] at h1 h2
      simp only [Bool.or_eq_false_iff, Bool.and_eq_false_iff, decide_eq_false_iff_not] at h1 h2
      have hxy : x.toNat = y.toNat := by omega
      have hx : x = y := char_toNat_inj hxy
      subst hx
      rcases h1.2 with h | h
      · exact absurd hxy h
      · rcases h2.2 with h2t | h2t
        · exact absurd hxy.symm h2t
        · rw [ih h h2t]

/-- Strings that are mutually not-less in the Go order are equal. -/
theorem goStrLt_eq_of_not {a b : String} (h1 : goStrLt a b = false)
    (h2 : goStrLt b a = false) : a = b := by
  cases a with
  | mk da =>
    cases b with
    | mk db =>
      have h := charsLt_eq_of_not (a := da) (b := db) h1 h2
      rw [h]

/-- goStrLt is transitive. -/
theorem goStrLt_trans {a b c : String} (h1 : goStrLt a b = true) (h2 : goStrLt b c = true) :
    goStrLt a c = true :=
  charsLt_trans h1 h2

/-- goStrLt implies disequality. -/
theorem goStrLt_ne {a b : String} (h : goStrLt a b = true) : a ≠ b := by
  intro he
  subst he
  rw [goStrLt, charsLt_irrefl] at h
  exact absurd h (by simp)

/-- The tail of a path-sorted list is path-sorted. -/
theorem pathSorted_cons {a : FI} {l : List FI} (h : pathSorted (a :: l) = true) :
    pathSorted l = true := by
  cases l with
  | nil => rfl
  | cons b rest =>
    have := h
    simp only [pathSorted, Bool.and_eq_true] at this
    exact this.2

/-- In a path-sorted list the head's path is below every later path. -/
theorem pathSorted_head_lt {a : FI} {l : List FI} (h : pathSorted (a :: l) = true) :
    ∀ x ∈ l, goStrLt a.fpath x.fpath = true := by
  induction l generalizing a with
  | nil => intro x hx; exact absurd hx (by simp)
  | cons b rest ih =>
    intro x hx
    have hh := h
    simp only [pathSorted, Bool.and_eq_true] at hh
    rcases List.mem_cons.mp hx with hxb | hxr
    · rw [hxb]; exact hh.1
    · exact goStrLt_trans hh.1 (ih hh.2 x hxr)

/-- A path strictly below a sorted list's head is below every member. -/
theorem sorted_all_gt {d c : FI} {cs : List FI} (hc : pathSorted (c :: cs) = true)
    (hdc : goStrLt d.fpath c.fpath = true) :
    ∀ x ∈ c :: cs, goStrLt d.fpath x.fpath = true := by
  intro x hx
  rcases List.mem_cons.mp hx with hxc | hxs
  · rw [hxc]; exact hdc
  · exact goStrLt_trans hdc (pathSorted_head_lt hc x hxs)

/-- findByPath skips a head with a different path. -/
theorem findByPath_cons_ne {d : FI} {ds : List FI} {p : String} (h : ¬ d.fpath = p) :
    findByPath (d :: ds) p = findByPath ds p := by
  simp [findByPath, List.find?_cons, h]

/-- findByPath finds nothing when no member has the path. -/
theorem findByPath_none {l : List FI} {p : String} (h : ∀ x ∈ l, ¬ x.fpath = p) :
    findByPath l p = none := by
  rw [findByPath, List.find?_eq_none]
  intro x hx
  simp [h x hx]

/-- specDelP on an empty disk side accepts everything. -/
theorem specDelP_nil : specDelP [] = fun _ => true := rfl

/-- specAddP on an empty content side accepts everything. -/
theorem specAddP_nil : specAddP [] = fun _ => true := rfl

/-- The merge loop of diff computes exactly the spec's two filters
(for path-sorted inputs). -/
theorem diffLoop_spec : ∀ (cnt dir : List FI), pathSorted cnt = true → pathSorted dir = true →
    diffLoop cnt dir = (cnt.filter (specDelP dir), dir.filter (specAddP cnt))
  | [], [], _, _ => by simp [diffLoop]
  | [], d :: ds, hc, hd => by
    have ih := diffLoop_spec [] ds rfl (pathSorted_cons hd)
    simp only [diffLoop, ih]
    simp [specAddP_nil]
  | c :: cs, [], hc, hd => by
    have ih := diffLoop_spec cs [] (pathSorted_cons hc) rfl
    simp only [diffLoop, ih]
    simp [specDelP_nil]
  | c :: cs, d :: ds, hc, hd => by
    have hcs := pathSorted_cons hc
    have hds := pathSorted_cons hd
    by_cases hdc : goStrLt d.fpath c.fpath = true
    · have ih := diffLoop_spec (c :: cs) ds hc hds
      have hall : ∀ x ∈ c :: cs, goStrLt d.fpath x.fpath = true := sorted_all_gt hc hdc
      have hhead : specAddP (c :: cs) d = true := by
        rw [specAddP, findByPath_none]
        intro x hx he
        exact goStrLt_ne (hall x hx) he.symm
      have htail : (c :: cs).filter (specDelP ds) = (c :: cs).filter (specDelP (d :: ds)) :=
        List.filter_congr fun x hx => by
          simp only [specDelP, findByPath_cons_ne (goStrLt_ne (hall x hx))]
      simp only [diffLoop, if_pos hdc, ih]
      simp only [Prod.mk.injEq]
      exact ⟨htail, by simp [List.filter_cons, hhead]⟩
    · by_cases hcd : goStrLt c.fpath d.fpath = true
      · have ih := diffLoop_spec cs (d :: ds) hcs hd
        have hall : ∀ x ∈ d :: ds, goStrLt c.fpath x.fpath = true := sorted_all_gt hd hcd
        have hhead : specDelP (d :: ds) c = true := by
          rw [specDelP, findByPath_none]
          intro x hx he
          exact goStrLt_ne (hall x hx) he.symm
        have htail : (d :: ds).filter (specAddP cs) = (d :: ds).filter (specAddP (c :: cs)) :=
          List.filter_congr fun x hx => by
            simp only [specAddP, findByPath_cons_ne (goStrLt_ne (hall x hx))]
        simp only [diffLoop, if_neg hdc, if_pos hcd, ih]
        simp only [Prod.mk.injEq]
        exact ⟨by simp [List.filter_cons, hhead], htail⟩
      · have heq : c.fpath = d.fpath :=
          goStrLt_eq_of_not (by simpa using hcd) (by simpa using hdc)
        have ih := diffLoop_spec cs ds hcs hds
        have hallc : ∀ x ∈ cs, ¬ d.fpath = x.fpath := by
          intro x hx he
          exact goStrLt_ne (heq ▸ pathSorted_head_lt hc x hx) he
        have halld : ∀ x ∈ ds, ¬ c.fpath = x.fpath := by
          intro x hx he
          exact goStrLt_ne (heq ▸ pathSorted_head_lt hd x hx) he
        have hdelc : specDelP (d :: ds) c = decide (c.fLastChange < d.fLastChange) := by
          rw [specDelP, findByPath, List.find?_cons, heq]
          simp
        have haddd : specAddP (c :: cs) d = decide (c.fLastChange < d.fLastChange) := by
          rw [specAddP, findByPath, List.find?_cons, heq]
          simp
        have hdeltl : cs.filter (specDelP ds) = cs.filter (specDelP (d :: ds)) :=
          List.filter_congr fun x hx => by
            simp only [specDelP, findByPath_cons_ne (fun he => hallc x hx he)]
        have haddtl : ds.filter (specAddP cs) = ds.filter (specAddP (c :: cs)) :=
          List.filter_congr fun x hx => by
            simp only [specAddP, findByPath_cons_ne (fun he => halld x hx he)]
        simp only [diffLoop, if_neg hdc, if_neg hcd, ih]
        by_cases hlt : c.fLastChange < d.fLastChange
        · rw [if_pos hlt, List.filter_cons, List.filter_cons, hdelc, haddd]
          simp [hlt, ← hdeltl, ← haddtl]
        · rw [if_neg hlt, List.filter_cons, List.filter_cons, hdelc, haddd]
          simp [hlt, ← hdeltl, ← haddtl]
termination_by cnt dir => cnt.length + dir.length

/-- C2: for path-sorted inputs, diff(content, disk) returns exactly the
content entries whose path is absent from disk or whose disk counterpart
has a strictly greater lastChange (to delete) and exactly the disk entries
whose path is absent from the content or whose content counterpart has a
strictly smaller lastChange (to add). -/
theorem c2_diff (cnt dir : List FI) (hc : pathSorted cnt = true) (hd : pathSorted dir = true) :
    diff cnt dir = (cnt.filter (specDelP dir), dir.filter (specAddP cnt)) := by
  rw [diff]
  by_cases h1 : cnt.length = 0
  · have : cnt = [] := List.length_eq_zero.mp h1
    subst this
    simp [specAddP_nil]
  · rw [if_neg h1]
    by_cases h2 : dir.length = 0
    · have : dir = [] := List.length_eq_zero.mp h2
      subst this
      simp [specDelP_nil]
    · rw [if_neg h2]
      exact diffLoop_spec cnt dir hc hd

/-- C2 witness: the claim's concrete replacement instance
diff([x@100], [x@200]) = ([x@100], [x@200]). -/
theorem c2_diff_witness :
    pathSorted [⟨"/m/x.mp3", 100⟩] = true ∧
    diff [⟨"/m/x.mp3", 100⟩] [⟨"/m/x.mp3", 200⟩] =
      ([⟨"/m/x.mp3", 100⟩], [⟨"/m/x.mp3", 200⟩]) := by
  refine ⟨by decide, ?_⟩
  rw [c2_diff [⟨"/m/x.mp3", 100⟩] [⟨"/m/x.mp3", 200⟩] (by decide) (by decide)]
  decide

/-- goStrLt is asymmetric. -/
theorem goStrLt_asymm {x y : String} (h : goStrLt x y = true) : goStrLt y x = false := by
  cases hyx : goStrLt y x with
  | false => rfl
  | true =>
    have hxx := goStrLt_trans h hyx
    rw [goStrLt, charsLt_irrefl] at hxx
    exact absurd hxx (by simp)

/-- goStrLt is total on distinct strings. -/
theorem goStrLt_total_ne {x y : String} (hne : x ≠ y) :
    goStrLt x y = true ∨ goStrLt y x = true := by
  cases h1 : goStrLt x y with
  | true => exact Or.inl rfl
  | false =>
    cases h2 : goStrLt y x with
    | true => exact Or.inr rfl
    | false => exact absurd (goStrLt_eq_of_not h1 h2) hne

/-- Both comparison functions the configuration can produce are asymmetric. -/
theorem cmp_asymm {cmp : Comparison} (hc : cmp = cmpAsc ∨ cmp = cmpDesc) {x y : String}
    (h : cmp x y = true) : cmp y x = false := by
  rcases hc with h1 | h1 <;> subst h1
  · exact goStrLt_asymm h
  · exact goStrLt_asymm h

/-- Both comparison functions are transitive. -/
theorem cmp_trans {cmp : Comparison} (hc : cmp = cmpAsc ∨ cmp = cmpDesc) {x y z : String}
    (h1 : cmp x y = true) (h2 : cmp y z = true) : cmp x z = true := by
  rcases hc with h | h <;> subst h
  · exact goStrLt_trans h1 h2
  · exact goStrLt_trans h2 h1

/-- Both comparison functions are total on distinct strings. -/
theorem cmp_total_ne {cmp : Comparison} (hc : cmp = cmpAsc ∨ cmp = cmpDesc) {x y : String}
    (hne : x ≠ y) : cmp x y = true ∨ cmp y x = true := by
  rcases hc with h | h <;> subst h
  · exact goStrLt_total_ne hne
  · show goStrLt y x = true ∨ goStrLt x y = true
    exact goStrLt_total_ne (Ne.symm hne)

/-- The lexicographic product of configuration comparisons is asymmetric. -/
theorem lexLessGo_asymm {a b : SObj} : ∀ (cs : List Comparison) (k : Nat),
    (∀ cmp ∈ cs, cmp = cmpAsc ∨ cmp = cmpDesc) →
    lexLessGo a b cs k = true → lexLessGo b a cs k = false := by
  intro cs
  induction cs with
  | nil => intro k _ h; simp [lexLessGo] at h
  | cons cmp rest ih =>
    intro k hcs h
    have hcmp := hcs cmp (by simp)
    have hrest : ∀ x ∈ rest, x = cmpAsc ∨ x = cmpDesc := fun x hx => hcs x (by simp [hx])
    simp only [lexLessGo] at h ⊢
    by_cases hab : sortField a k = sortField b k
    · rw [if_pos hab] at h
      rw [if_pos hab.symm]
      exact ih (k + 1) hrest h
    · rw [if_neg hab] at h
      rw [if_neg (fun he => hab he.symm)]
      exact cmp_asymm hcmp h

/-- The lexicographic product satisfies the strict-weak-order condition:
if `a < c` then `a < b` or `b < c`. -/
theorem lexLessGo_negtrans {a b c : SObj} : ∀ (cs : List Comparison) (k : Nat),
    (∀ cmp ∈ cs, cmp = cmpAsc ∨ cmp = cmpDesc) →
    lexLessGo a c cs k = true →
    lexLessGo a b cs k = true ∨ lexLessGo b c cs k = true := by
  intro cs
  induction cs with
  | nil => intro k _ h; simp [lexLessGo] at h
  | cons cmp rest ih =>
    intro k hcs h
    have hcmp := hcs cmp (by simp)
    have hrest : ∀ x ∈ rest, x = cmpAsc ∨ x = cmpDesc := fun x hx => hcs x (by simp [hx])
    simp only [lexLessGo] at h ⊢
    by_cases hac : sortField a k = sortField c k
    · rw [if_pos hac] at h
      by_cases hab : sortField a k = sortField b k
      · have hbc : sortField b k = sortField c k := hab ▸ hac
        rw [if_pos hab, if_pos hbc]
        exact ih (k + 1) hrest h
      · have hbc : ¬ sortField b k = sortField c k := fun he => hab (hac ▸ he.symm)
        rw [if_neg hab, if_neg hbc]
        rcases cmp_total_ne hcmp hab with ht | ht
        · exact Or.inl ht
        · exact Or.inr (hac ▸ ht)
    · rw [if_neg hac] at h
      by_cases hab : sortField a k = sortField b k
      · have hbc : ¬ sortField b k = sortField c k := fun he => hac (hab ▸ he)
        rw [if_neg hbc]
        exact Or.inr (hab ▸ h)
      · rw [if_neg hab]
        by_cases hbc : sortField b k = sortField c k
        · exact Or.inl (hbc ▸ h)
        · rw [if_neg hbc]
          rcases cmp_total_ne hcmp hab with ht | ht
          · exact Or.inl ht
          · exact Or.inr (cmp_trans hcmp ht h)

/-- refsLe is transitive for configuration comparison vectors. -/
theorem refsLe_trans {comps : List Comparison}
    (hc : ∀ cmp ∈ comps, cmp = cmpAsc ∨ cmp = cmpDesc) (a b c : SObj)
    (h1 : refsLe comps a b = true) (h2 : refsLe comps b c = true) :
    refsLe comps a c = true := by
  rw [refsLe, Bool.not_eq_true'] at h1 h2 ⊢
  cases hca : lexLess comps c a with
  | false => rfl
  | true =>
    rcases lexLessGo_negtrans comps 0 hc hca with h | h
    · rw [lexLess] at h2; rw [h2] at h; exact absurd h (by simp)
    · rw [lexLess] at h1; rw [h1] at h; exact absurd h (by simp)

/-- refsLe is total for configuration comparison vectors. -/
theorem refsLe_total {comps : List Comparison}
    (hc : ∀ cmp ∈ comps, cmp = cmpAsc ∨ cmp = cmpDesc) (a b : SObj) :
    (refsLe comps a b || refsLe comps b a) = true := by
  rw [refsLe, refsLe]
  cases hba : lexLess comps b a with
  | false => simp
  | true =>
    have := lexLessGo_asymm comps 0 hc hba
    rw [lexLess, this]
    simp

/-- The cache invariant of the child table: the comparison vector is the
construction-time one and the ordered sequence is either cleared or exactly
the sorted sequence of the current byID values. -/
def cacheOK (comps : List Comparison) (r : Refs) : Prop :=
  r.comps = comps ∧
  (r.inOrder = [] ∨
    r.inOrder = (r.byID.map (fun e => e.snd)).mergeSort (refsLe comps))

/-- Every child-table state reachable by add/del/access operations satisfies
the cache invariant. -/
theorem refsRun_cacheOK (comps : List Comparison) (ops : List RefsOp) :
    cacheOK comps (refsRun comps ops) := by
  rw [refsRun]
  have hstep : ∀ (r : Refs) (op : RefsOp), cacheOK comps r → cacheOK comps (refsStep r op) := by
    intro r op hr
    rcases op with o | o | idx
    · refine ⟨hr.1, Or.inl ?_⟩
      simp only [refsStep, refsAdd]
      split
      · rfl
      · rcases hr.2 with h | h
        · exact h
        · rename_i hlen
          cases hord : r.inOrder with
          | nil => rfl
          | cons x xs => exact absurd (by rw [hord]; simp) hlen
    · exact ⟨hr.1, Or.inl rfl⟩
    · refine ⟨hr.1, Or.inr ?_⟩
      simp only [refsStep, refsRebuild, hr.1]
      split
      · rfl
      · rcases hr.2 with h | h
        · rename_i hlen
          exact absurd (by rw [h]; simp) hlen
        · exact h
  have hgo : ∀ (l : List RefsOp) (r : Refs), cacheOK comps r →
      cacheOK comps (l.foldl refsStep r) := by
    intro l
    induction l with
    | nil => intro r hr; exact hr
    | cons op rest ih => intro r hr; exact ih _ (hstep r op hr)
  exact hgo ops (newRefs comps) ⟨rfl, Or.inl rfl⟩

/-- Under the cache invariant the rebuilt ordered sequence is the sorted
byID values. -/
theorem refsRebuild_eq {comps : List Comparison} {r : Refs} (h : cacheOK comps r) :
    refsRebuild r = (r.byID.map (fun e => e.snd)).mergeSort (refsLe comps) := by
  rw [refsRebuild, h.1]
  split
  · rfl
  · rcases h.2 with h2 | h2
    · rename_i hlen
      exact absurd (by rw [h2]; simp) hlen
    · exact h2

/-- C3: after any sequence of add-child / remove-child / child-by-index
operations on a container whose comparison vector consists of the
configuration's ascending/descending string comparisons, the children
delivered by child-by-index are sorted: for i < j, the sort-field vector of
child j is not lexicographically less than that of child i, i.e. child i's
vector is not greater than child j's under the comparator product. -/
theorem c3_child_order (comps : List Comparison)
    (hcomps : ∀ cmp ∈ comps, cmp = cmpAsc ∨ cmp = cmpDesc)
    (ops : List RefsOp) (i j : Nat) (hij : i < j)
    (hj : j < (refsRebuild (refsRun comps ops)).length) :
    lexLess comps (refsItem (refsRun comps ops) j) (refsItem (refsRun comps ops) i) = false := by
  have hcache := refsRun_cacheOK comps ops
  have hre := refsRebuild_eq hcache
  have hsorted : ((refsRun comps ops).byID.map (fun e => e.snd)).mergeSort
      (refsLe comps) |>.Pairwise (fun a b => refsLe comps a b = true) := by
    have := @List.sorted_mergeSort SObj (refsLe comps)
      (fun a b c h1 h2 => refsLe_trans hcomps a b c h1 h2)
      (fun a b => refsLe_total hcomps a b)
      ((refsRun comps ops).byID.map (fun e => e.snd))
    exact this.imp (fun h => h)
  rw [← hre] at hsorted
  have hi : i < (refsRebuild (refsRun comps ops)).length := Nat.lt_trans hij hj
  have hpw := (List.pairwise_iff_getElem.mp hsorted) i j hi hj hij
  have hgetd_i : refsItem (refsRun comps ops) i = (refsRebuild (refsRun comps ops))[i] := by
    rw [refsItem, List.getD_eq_getElem?_getD, List.getElem?_eq_getElem hi]
    rfl
  have hgetd_j : refsItem (refsRun comps ops) j = (refsRebuild (refsRun comps ops))[j] := by
    rw [refsItem, List.getD_eq_getElem?_getD, List.getElem?_eq_getElem hj]
    rfl
  rw [hgetd_i, hgetd_j]
  rw [refsLe, Bool.not_eq_true'] at hpw
  exact hpw

/-- C3 witness: a container with the ascending title comparison, two adds
and one access; the theorem applies at indices 0 < 1. -/
theorem c3_child_order_witness :
    (∀ cmp ∈ [cmpAsc], cmp = cmpAsc ∨ cmp = cmpDesc) ∧
    (0 : Nat) < 1 ∧
    1 < (refsRebuild (refsRun [cmpAsc]
      [.addObj ⟨1, 10, ["b"]⟩, .addObj ⟨2, 20, ["a"]⟩, .access 0])).length ∧
    lexLess [cmpAsc]
      (refsItem (refsRun [cmpAsc] [.addObj ⟨1, 10, ["b"]⟩, .addObj ⟨2, 20, ["a"]⟩, .access 0]) 1)
      (refsItem (refsRun [cmpAsc] [.addObj ⟨1, 10, ["b"]⟩, .addObj ⟨2, 20, ["a"]⟩, .access 0]) 0)
      = false := by
  have hcomps : ∀ cmp ∈ [cmpAsc], cmp = cmpAsc ∨ cmp = cmpDesc := by
    intro cmp hc
    rw [List.mem_singleton] at hc
    exact Or.inl hc
  have hlen : 1 < (refsRebuild (refsRun [cmpAsc]
      [.addObj ⟨1, 10, ["b"]⟩, .addObj ⟨2, 20, ["a"]⟩, .access 0])).length := by
    have hcache := refsRun_cacheOK [cmpAsc]
      [.addObj ⟨1, 10, ["b"]⟩, .addObj ⟨2, 20, ["a"]⟩, .access 0]
    rw [refsRebuild_eq hcache, List.length_mergeSort]
    decide
  exact ⟨hcomps, by decide, hlen,
    c3_child_order [cmpAsc] hcomps
      [.addObj ⟨1, 10, ["b"]⟩, .addObj ⟨2, 20, ["a"]⟩, .access 0] 0 1 (by decide) hlen⟩

/-- Entries of a list are determined by membership and an injective-on-the-
list projection when the projected list has no duplicates. -/
theorem nodup_map_eq {α κ : Type} {g : α → κ} {m : List α} (h : (m.map g).Nodup)
    {e1 e2 : α} (h1 : e1 ∈ m) (h2 : e2 ∈ m) (he : g e1 = g e2) : e1 = e2 := by
  induction m with
  | nil => exact absurd h1 (by simp)
  | cons a rest ih =>
    rw [List.map_cons, List.nodup_cons] at h
    rcases List.mem_cons.mp h1 with he1 | he1 <;> rcases List.mem_cons.mp h2 with he2 | he2
    · rw [he1, he2]
    · exfalso
      apply h.1
      have hmm : g e2 ∈ rest.map g := List.mem_map_of_mem g he2
      rw [← he, he1] at hmm
      exact hmm
    · exfalso
      apply h.1
      have hmm : g e1 ∈ rest.map g := List.mem_map_of_mem g he1
      rw [he, he2] at hmm
      exact hmm
    · exact ih h.2 he1 he2

/-- A successful assocGet yields a member of the list. -/
theorem assocGet_mem {κ ν : Type} [DecidableEq κ] {m : List (κ × ν)} {k : κ} {v : ν}
    (h : assocGet m k = some v) : (k, v) ∈ m := by
  induction m with
  | nil => exact absurd h (by simp [assocGet])
  | cons a rest ih =>
    rw [assocGet] at h
    by_cases ha : (a.fst == k) = true
    · rw [if_pos ha] at h
      have hfst : a.fst = k := by simpa using ha
      have hsnd : a.snd = v := by simpa using h
      have : (k, v) = a := by rw [← hfst, ← hsnd]
      rw [this]
      exact List.mem_cons_self a rest
    · rw [if_neg ha] at h
      exact List.mem_cons_of_mem a (ih h)

/-- assocSet appends when the key is absent. -/
theorem assocSet_not_mem {κ ν : Type} [DecidableEq κ] {m : List (κ × ν)} {k : κ} (v : ν)
    (h : k ∉ m.map Prod.fst) : assocSet m k v = m ++ [(k, v)] := by
  induction m with
  | nil => rfl
  | cons a rest ih =>
    rw [List.map_cons, List.mem_cons] at h
    push_neg at h
    rw [assocSet, if_neg (by simpa using Ne.symm h.1), List.cons_append, ih h.2]

/-- C8 counterexample: the update pipeline violates the claimed key
uniqueness.  Adding two track-references for two different tracks that
carry the same title (keys are the FNV hash of the title) to one container
through the track-level branch of addTrackToSubHierarchy leaves the id map
with 2 entries but the key map with only 1 — the two children share a key
and the two maps have different cardinality. -/
theorem c8_child_table_counterexample :
    (newTrackRefObj 101 "Intro").okey = (newTrackRefObj 102 "Intro").okey ∧
    (newTrackRefObj 101 "Intro").oid ≠ (newTrackRefObj 102 "Intro").oid ∧
    (addTrackRefToCtr (addTrackRefToCtr (newRefs [cmpAsc]) 101 "Intro") 102 "Intro").byID.length
      = 2 ∧
    (addTrackRefToCtr (addTrackRefToCtr (newRefs [cmpAsc]) 101 "Intro") 102 "Intro").byKey.length
      = 1 ∧
    (2 : Nat) ≠ 1 := by
  refine ⟨rfl, by decide, by decide, by decide, by decide⟩

/-- C8 (amended): the alignment invariant — the key map is exactly the id
map re-keyed by object key, ids and keys are duplicate-free and both maps
have the same cardinality — holds for a fresh table and is preserved by
add-child, provided the inserted child's id and key are fresh, and by
remove-child of a present child (or of an object absent from the table).
Without the key-freshness proviso the invariant fails (see the
counterexample): a later insert with an equal key overwrites the byKey
entry while byID keeps both children. -/
theorem c8_child_table (comps : List Comparison) (r : Refs) (o : SObj)
    (ha : alignedRefs r) :
    alignedRefs (newRefs comps) ∧
    r.byID.length = r.byKey.length ∧
    (o.oid ∉ r.byID.map (fun e => e.fst) →
      o.okey ∉ r.byID.map (fun e => e.snd.okey) →
      alignedRefs (refsAdd r o)) ∧
    ((assocGet r.byID o.oid = some o ∨
        (o.oid ∉ r.byID.map (fun e => e.fst) ∧ o.okey ∉ r.byID.map (fun e => e.snd.okey))) →
      alignedRefs (refsDel r o)) := by
  obtain ⟨hmap, hids, hkeys, hself⟩ := ha
  refine ⟨⟨rfl, by simp [newRefs], by simp [newRefs], by simp [newRefs]⟩, ?_, ?_, ?_⟩
  · rw [hmap, List.length_map]
  · intro hid hkey
    have hbid : assocSet r.byID o.oid o = r.byID ++ [(o.oid, o)] := assocSet_not_mem o hid
    have hkeyfst : o.okey ∉ r.byKey.map Prod.fst := by
      rw [hmap, List.map_map]
      simpa using hkey
    have hbkey : assocSet r.byKey o.okey o = r.byKey ++ [(o.okey, o)] :=
      assocSet_not_mem o hkeyfst
    refine ⟨?_, ?_, ?_, ?_⟩
    · show assocSet r.byKey o.okey o = (assocSet r.byID o.oid o).map _
      rw [hbid, hbkey, List.map_append, ← hmap]
      rfl
    · show ((assocSet r.byID o.oid o).map _).Nodup
      rw [hbid, List.map_append]
      rw [List.nodup_append]
      exact ⟨hids, by simp, by simpa using fun hmem => hid hmem⟩
    · show ((assocSet r.byID o.oid o).map _).Nodup
      rw [hbid, List.map_append]
      rw [List.nodup_append]
      exact ⟨hkeys, by simp, by simpa using fun hmem => hkey hmem⟩
    · show ∀ e ∈ assocSet r.byID o.oid o, e.fst = e.snd.oid
      rw [hbid]
      intro e he
      rcases List.mem_append.mp he with hm | hm
      · exact hself e hm
      · have : e = (o.oid, o) := by simpa using hm
        rw [this]
  · intro hcase
    have hfilter : r.byID.filter (fun e => !(e.snd.okey == o.okey)) =
        r.byID.filter (fun e => !(e.fst == o.oid)) := by
      refine List.filter_congr fun e he => ?_
      rcases hcase with hm | ⟨hid, hkey⟩
      · have hmem : (o.oid, o) ∈ r.byID := assocGet_mem hm
        have hiff : e.snd.okey = o.okey ↔ e.fst = o.oid := by
          constructor
          · intro hk
            have : e = (o.oid, o) := nodup_map_eq hkeys he hmem (by simpa using hk)
            rw [this]
          · intro hk
            have : e = (o.oid, o) := nodup_map_eq hids he hmem (by simpa using hk)
            rw [this]
        by_cases hk : e.snd.okey = o.okey
        · have h2 := hiff.mp hk
          simp [hk, h2]
        · have h2 : ¬ e.fst = o.oid := fun hc => hk (hiff.mpr hc)
          simp [hk, h2]
      · have h1 : ¬ e.fst = o.oid := fun hc => hid (hc ▸ List.mem_map_of_mem _ he)
        have h2 : ¬ e.snd.okey = o.okey := fun hc => hkey (hc ▸ List.mem_map_of_mem _ he)
        simp [h1, h2]
    refine ⟨?_, ?_, ?_, ?_⟩
    · show assocDel r.byKey o.okey = (assocDel r.byID o.oid).map _
      rw [assocDel, assocDel, hmap, List.filter_map]
      have hcomp : ((fun (e : Nat × SObj) => !(e.fst == o.okey)) ∘
          (fun (e : Int × SObj) => (e.snd.okey, e.snd))) =
          (fun (e : Int × SObj) => !(e.snd.okey == o.okey)) := rfl
      rw [hcomp, hfilter]
    · show ((assocDel r.byID o.oid).map _).Nodup
      exact ((List.filter_sublist _).map _).nodup hids
    · show ((assocDel r.byID o.oid).map _).Nodup
      exact ((List.filter_sublist _).map _).nodup hkeys
    · show ∀ e ∈ assocDel r.byID o.oid, e.fst = e.snd.oid
      intro e he
      exact hself e (List.mem_of_mem_filter he)

/-- C8 witness: the amended theorem applied at a concrete aligned table and
a fresh object. -/
theorem c8_child_table_witness :
    alignedRefs (newRefs ([] : List Comparison)) ∧
    alignedRefs (refsAdd (newRefs ([] : List Comparison)) ⟨1, 5, []⟩) := by
  have ha : alignedRefs (newRefs ([] : List Comparison)) := by
    refine ⟨rfl, by simp [newRefs], by simp [newRefs], by simp [newRefs]⟩
  have h := c8_child_table [] (newRefs []) ⟨1, 5, []⟩ ha
  exact ⟨h.1, h.2.2.1 (by simp [newRefs]) (by simp [newRefs])⟩

/-- Reading back the key just set yields the value just written. -/
theorem assocGet_set_self {κ ν : Type} [DecidableEq κ] (m : List (κ × ν)) (k : κ) (v : ν) :
    assocGet (assocSet m k v) k = some v := by
  induction m with
  | nil => simp [assocSet, assocGet]
  | cons a rest ih =>
    rw [assocSet]
    by_cases ha : (a.fst == k) = true
    · rw [if_pos ha, assocGet, if_pos (by simp)]
    · rw [if_neg ha, assocGet, if_neg ha]
      exact ih

/-- Setting one key leaves reads of other keys unchanged. -/
theorem assocGet_set_ne {κ ν : Type} [DecidableEq κ] (m : List (κ × ν)) (k k2 : κ) (v : ν)
    (h : ¬ k2 = k) : assocGet (assocSet m k v) k2 = assocGet m k2 := by
  have hke : (k == k2) = false := by
    simp only [beq_eq_false_iff_ne, ne_eq]
    exact fun he => h he.symm
  induction m with
  | nil => simp [assocSet, assocGet, hke]
  | cons a rest ih =>
    rw [assocSet]
    by_cases ha : (a.fst == k) = true
    · have hak : a.fst = k := by simpa using ha
      rw [if_pos ha, assocGet, assocGet, if_neg (by simp [hke]), if_neg (by rw [hak]; simp [hke])]
    · rw [if_neg ha, assocGet, assocGet]
      by_cases hb : (a.fst == k2) = true
      · rw [if_pos hb, if_pos hb]
      · rw [if_neg hb, if_neg hb, ih]

/-- assocGet misses exactly the keys that are absent. -/
theorem assocGet_none_iff {κ ν : Type} [DecidableEq κ] {m : List (κ × ν)} {k : κ} :
    assocGet m k = none ↔ k ∉ m.map Prod.fst := by
  induction m with
  | nil => simp [assocGet]
  | cons a rest ih =>
    rw [assocGet, List.map_cons, List.mem_cons]
    by_cases ha : (a.fst == k) = true
    · have hak : a.fst = k := by simpa using ha
      rw [if_pos ha]
      simp [hak]
    · have hak : ¬ k = a.fst := by
        intro he
        exact ha (by simp [he])
      rw [if_neg ha, ih]
      simp [hak]

/-- Sum of the delta-map values over an appended fresh entry. -/
theorem sumUpdCounts_append (m : UpdMap) (k : Int) (v : Nat) :
    sumUpdCounts (m ++ [(k, v)]) = sumUpdCounts m + v := by
  simp [sumUpdCounts]

/-- Sum of the delta-map values over an in-place replacement. -/
theorem sumUpdCounts_set (m : UpdMap) (k : Int) (v w : Nat) (h : assocGet m k = some v) :
    sumUpdCounts (assocSet m k w) + v = sumUpdCounts m + w := by
  induction m with
  | nil => exact absurd h (by simp [assocGet])
  | cons a rest ih =>
    rw [assocGet] at h
    rw [assocSet]
    by_cases ha : (a.fst == k) = true
    · rw [if_pos ha] at h
      have hv : a.snd = v := by simpa using h
      rw [if_pos ha]
      simp only [sumUpdCounts, List.map_cons, List.sum_cons] at *
      omega
    · rw [if_neg ha] at h
      rw [if_neg ha]
      have := ih h
      simp only [sumUpdCounts, List.map_cons, List.sum_cons] at *
      omega

/-- Splitting off the first operation of a sequence. -/
theorem applyChildOps_cons (m : UpdMap) (op : ChildOp) (l : List ChildOp) :
    applyChildOps m (op :: l) = applyChildOps (applyChildOp m op) l := rfl

/-- Splitting off the last operation of a sequence. -/
theorem applyChildOps_append (m : UpdMap) (l : List ChildOp) (op : ChildOp) :
    applyChildOps m (l ++ [op]) = applyChildOp (applyChildOps m l) op := by
  rw [applyChildOps, applyChildOps, List.foldl_append]
  rfl

/-- Per-container operation count of a sequence with one appended op. -/
theorem countOpsFor_append (l : List ChildOp) (op : ChildOp) (id : Int) :
    countOpsFor (l ++ [op]) id =
      countOpsFor l id + (if childOpCtr op = id then 1 else 0) := by
  rw [countOpsFor, countOpsFor, List.filter_append]
  by_cases h : childOpCtr op = id
  · simp [h]
  · simp [h]

/-- The delta-map entry of each container equals (mod 2^32) the number of
operations that acted on it since the reset, and is absent exactly when
that number is zero. -/
theorem applyChildOps_get (ops : List ChildOp) (id : Int) :
    assocGet (applyChildOps [] ops) id =
      if countOpsFor ops id = 0 then none else some (countOpsFor ops id % u32Mod) := by
  induction ops using List.reverseRecOn with
  | nil => simp [applyChildOps, countOpsFor, assocGet]
  | append_singleton l op ih =>
    rw [applyChildOps_append, countOpsFor_append, applyChildOp]
    by_cases hid : childOpCtr op = id
    · rw [hid, traceUpdate]
      by_cases h0 : countOpsFor l id = 0
      · have hnone : assocGet (applyChildOps [] l) id = none := by rw [ih, if_pos h0]
        rw [hnone, assocGet_set_self]
        rw [if_neg (by simp [h0]), h0]
        have h1 : (0 + 1) % u32Mod = 1 := by decide
        simp [h1]
      · have hsome : assocGet (applyChildOps [] l) id =
            some (countOpsFor l id % u32Mod) := by rw [ih, if_neg h0]
        rw [hsome, assocGet_set_self]
        rw [if_neg (by simp [h0])]
        have hmod : (countOpsFor l id % u32Mod + 1) % u32Mod =
            (countOpsFor l id + 1) % u32Mod := by
          conv_rhs => rw [Nat.add_mod]
          norm_num
        simp [hmod]
    · have hne : assocGet (traceUpdate (applyChildOps [] l) (childOpCtr op)) id =
          assocGet (applyChildOps [] l) id := by
        rw [traceUpdate]
        cases assocGet (applyChildOps [] l) (childOpCtr op) with
        | none => exact assocGet_set_ne _ _ _ _ (fun he => hid he.symm)
        | some v => exact assocGet_set_ne _ _ _ _ (fun he => hid he.symm)
      rw [hne, ih, if_neg hid]
      simp

/-- Under wrap-free per-container counts, the delta-map sum equals the
total number of operations. -/
theorem applyChildOps_sum (ops : List ChildOp)
    (h : ∀ id, countOpsFor ops id < u32Mod) :
    sumUpdCounts (applyChildOps [] ops) = ops.length := by
  induction ops using List.reverseRecOn with
  | nil => rfl
  | append_singleton l op ih =>
    have hsub : ∀ id, countOpsFor l id < u32Mod := by
      intro id
      have hx := h id
      rw [countOpsFor_append] at hx
      omega
    rw [applyChildOps_append, applyChildOp]
    cases hget : assocGet (applyChildOps [] l) (childOpCtr op) with
    | none =>
      simp only [traceUpdate, hget]
      rw [assocSet_not_mem 1 (assocGet_none_iff.mp hget), sumUpdCounts_append, ih hsub]
      simp
    | some v =>
      simp only [traceUpdate, hget]
      have hv : v = countOpsFor l (childOpCtr op) % u32Mod := by
        have hx := applyChildOps_get l (childOpCtr op)
        rw [hget] at hx
        split at hx
        · exact absurd hx (by simp)
        · simpa using hx
      have hlt : countOpsFor l (childOpCtr op) < u32Mod := hsub (childOpCtr op)
      have hfull := h (childOpCtr op)
      rw [countOpsFor_append, if_pos rfl] at hfull
      have hveq : v = countOpsFor l (childOpCtr op) := by rw [hv, Nat.mod_eq_of_lt hlt]
      have hmod : (v + 1) % u32Mod = v + 1 := Nat.mod_eq_of_lt (by omega)
      have hsum := sumUpdCounts_set (applyChildOps [] l) (childOpCtr op) v ((v + 1) % u32Mod) hget
      have hih := ih hsub
      have hlen : (l ++ [op]).length = l.length + 1 := by simp
      rw [hlen]
      omega

/-- C4 (amended): every ctr.addChild and ctr.delChild calls traceUpdate with
its container's id; traceUpdate creates an absent delta-map entry at 1 and
otherwise increments it by one in uint32 arithmetic (i.e. modulo 2^32).
Consequently, as long as no single container accumulates 2^32 or more
operations since the last reset, the sum of the delta-map values equals the
number of add-child / remove-child operations executed since the reset. -/
theorem c4_update_count_sum (ops : List ChildOp) (m : UpdMap) (id : Int)
    (h : ∀ i, countOpsFor ops i < u32Mod) :
    sumUpdCounts (applyChildOps [] ops) = ops.length ∧
    (assocGet m id = none → assocGet (traceUpdate m id) id = some 1) ∧
    (∀ v, assocGet m id = some v →
      assocGet (traceUpdate m id) id = some ((v + 1) % u32Mod)) := by
  refine ⟨applyChildOps_sum ops h, ?_, ?_⟩
  · intro hnone
    rw [traceUpdate, hnone]
    exact assocGet_set_self m id 1
  · intro v hsome
    rw [traceUpdate, hsome]
    exact assocGet_set_self m id ((v + 1) % u32Mod)

/-- C4 witness: three operations on two containers, plus the increment
behaviour on a concrete map. -/
theorem c4_update_count_sum_witness :
    sumUpdCounts (applyChildOps []
      [ChildOp.addChild 1, ChildOp.delChild 1, ChildOp.addChild 2]) = 3 ∧
    (assocGet ([] : UpdMap) 7 = none → assocGet (traceUpdate [] 7) 7 = some 1) := by
  have h := c4_update_count_sum
    [ChildOp.addChild 1, ChildOp.delChild 1, ChildOp.addChild 2] [] 7
    (fun i => lt_of_le_of_lt (List.length_filter_le _ _) (by decide))
  exact ⟨h.1, h.2.1⟩

/-- Auxiliary: repeated operations on one container wrap its counter mod
2^32. -/
theorem c4_wrap_aux : ∀ (n k : Nat),
    applyChildOps [((0 : Int), (k + 1) % u32Mod)] (List.replicate n (ChildOp.addChild 0)) =
      [((0 : Int), (k + 1 + n) % u32Mod)] := by
  intro n
  induction n with
  | zero => intro k; simp [applyChildOps]
  | succ n ih =>
    intro k
    rw [List.replicate_succ, applyChildOps_cons]
    have hstep : applyChildOp [((0 : Int), (k + 1) % u32Mod)] (ChildOp.addChild 0) =
        [((0 : Int), (k + 2) % u32Mod)] := by
      rw [applyChildOp, childOpCtr, traceUpdate]
      have hget : assocGet [((0 : Int), (k + 1) % u32Mod)] 0 = some ((k + 1) % u32Mod) := by
        simp [assocGet]
      rw [hget]
      have hmod : ((k + 1) % u32Mod + 1) % u32Mod = (k + 2) % u32Mod := by
        simp only [u32Mod]
        omega
      simp [assocSet, hmod]
    rw [hstep]
    have hrec := ih (k + 1)
    rw [show k + 1 + 1 = k + 2 from rfl] at hrec
    rw [hrec, show k + 2 + n = k + 1 + (n + 1) from by omega]

/-- C4 counterexample: after exactly 2^32 add-child operations on one
container, its uint32 counter has wrapped to 0, so the delta-map sum is 0
while the number of operations since the reset is 2^32 — the claimed
equality fails. -/
theorem c4_update_count_sum_counterexample :
    sumUpdCounts (applyChildOps [] (List.replicate u32Mod (ChildOp.addChild 0))) = 0 ∧
    (List.replicate u32Mod (ChildOp.addChild 0)).length = u32Mod ∧
    (0 : Nat) ≠ u32Mod := by
  refine ⟨?_, by simp, by decide⟩
  have hsplit : u32Mod = 4294967295 + 1 := by decide
  have h0 : applyChildOps [] (List.replicate u32Mod (ChildOp.addChild 0)) =
      [((0 : Int), 0)] := by
    rw [hsplit, List.replicate_succ, applyChildOps_cons]
    have hfirst : applyChildOp [] (ChildOp.addChild 0) = [((0 : Int), (0 + 1) % u32Mod)] := by
      have : (0 + 1) % u32Mod = 1 := by decide
      rw [this]
      rfl
    rw [hfirst, c4_wrap_aux 4294967295 0]
    norm_num [u32Mod]
  rw [h0]
  rfl

/-- maxLC is non-negative (it has floor 0). -/
theorem maxLC_nonneg (l : List ATrack) : 0 ≤ maxLC l := by
  induction l with
  | nil => exact le_refl 0
  | cons c cs ih =>
    show 0 ≤ max c.tLastChange (maxLC cs)
    exact le_trans ih (le_max_right _ _)

/-- maxLC over a cons cell. -/
theorem maxLC_cons (c : ATrack) (cs : List ATrack) :
    maxLC (c :: cs) = max c.tLastChange (maxLC cs) := rfl

/-- Every child's lastChange is bounded by maxLC. -/
theorem maxLC_le (l : List ATrack) : ∀ c ∈ l, c.tLastChange ≤ maxLC l := by
  induction l with
  | nil => intro c hc; exact absurd hc (by simp)
  | cons d ds ih =>
    intro c hc
    rw [maxLC_cons]
    rcases List.mem_cons.mp hc with h | h
    · rw [h]; exact le_max_left _ _
    · exact le_trans (ih c h) (le_max_right _ _)

/-- For non-negative lastChange values, maxLC of a non-empty list is
attained by some child. -/
theorem maxLC_attained (l : List ATrack) (hnn : ∀ c ∈ l, 0 ≤ c.tLastChange) (hne : l ≠ []) :
    ∃ c ∈ l, maxLC l = c.tLastChange := by
  induction l with
  | nil => exact absurd rfl hne
  | cons c cs ih =>
    cases cs with
    | nil =>
      refine ⟨c, by simp, ?_⟩
      rw [maxLC_cons]
      exact max_eq_left (hnn c (by simp))
    | cons d ds =>
      rw [maxLC_cons]
      rcases le_or_lt (maxLC (d :: ds)) c.tLastChange with hle | hlt
      · exact ⟨c, by simp, max_eq_left hle⟩
      · obtain ⟨x, hx, hxe⟩ := ih (fun y hy => hnn y (by simp [hy])) (by simp)
        exact ⟨x, by simp [hx], by rw [max_eq_right (le_of_lt hlt), hxe]⟩

/-- A fresh-id child is appended by children.add. -/
theorem childAdd_fresh (l : List ATrack) (t : ATrack) (h : ∀ c ∈ l, ¬ c.tid = t.tid) :
    childAdd l t = l ++ [t] := by
  induction l with
  | nil => rfl
  | cons c cs ih =>
    rw [childAdd, if_neg (by simpa using h c (by simp)),
      ih (fun x hx => h x (by simp [hx])), List.cons_append]

/-- maxLC over an appended element. -/
theorem maxLC_append_single (l : List ATrack) (t : ATrack) :
    maxLC (l ++ [t]) = max (maxLC l) t.tLastChange := by
  induction l with
  | nil =>
    rw [List.nil_append, maxLC_cons]
    exact max_comm _ _
  | cons c cs ih =>
    rw [List.cons_append, maxLC_cons, ih, maxLC_cons, max_assoc]

/-- childDel keeps a head with a different id. -/
theorem childDel_cons_keep {c t : ATrack} {cs : List ATrack} (hc : (c.tid == t.tid) = false) :
    childDel (c :: cs) t = c :: childDel cs t := by
  simp [childDel, List.filter_cons, hc]

/-- childDel drops a head with the same id. -/
theorem childDel_cons_drop {c t : ATrack} {cs : List ATrack} (hc : (c.tid == t.tid) = true) :
    childDel (c :: cs) t = childDel cs t := by
  simp [childDel, List.filter_cons, hc]

/-- Removing children can only lower maxLC. -/
theorem maxLC_childDel_le (cs : List ATrack) (t : ATrack) :
    maxLC (childDel cs t) ≤ maxLC cs := by
  induction cs with
  | nil => exact le_refl 0
  | cons c rest ih =>
    by_cases hc : (c.tid == t.tid) = true
    · rw [childDel_cons_drop hc, maxLC_cons]
      exact le_trans ih (le_max_right _ _)
    · rw [childDel_cons_keep (by simpa using hc), maxLC_cons, maxLC_cons]
      exact max_le_max (le_refl _) ih

/-- Removing a track whose lastChange is not the maximum (and which is the
only object carrying its id) keeps maxLC unchanged. -/
theorem maxLC_del (l : List ATrack) (t : ATrack)
    (hne : ¬ t.tLastChange = maxLC l)
    (hch : ∀ c ∈ l, c.tid = t.tid → c = t) :
    maxLC (childDel l t) = maxLC l := by
  induction l with
  | nil => rfl
  | cons c cs ih =>
    have hchcs : ∀ x ∈ cs, x.tid = t.tid → x = t := fun x hx => hch x (by simp [hx])
    rw [maxLC_cons] at hne
    rw [maxLC_cons]
    by_cases hc : (c.tid == t.tid) = true
    · have hct : c = t := hch c (by simp) (by simpa using hc)
      rw [childDel_cons_drop hc]
      rw [hct] at hne ⊢
      have hlt : t.tLastChange < maxLC cs := by
        rcases le_or_lt (maxLC cs) t.tLastChange with hle | hlt2
        · exact absurd (max_eq_left hle).symm hne
        · exact hlt2
      rw [max_eq_right (le_of_lt hlt)]
      exact ih (ne_of_lt hlt) hchcs
    · rw [childDel_cons_keep (by simpa using hc), maxLC_cons]
      by_cases hcs : t.tLastChange = maxLC cs
      · have hlt : t.tLastChange < c.tLastChange := by
          rcases le_or_lt c.tLastChange t.tLastChange with hle | hlt2
          · exfalso
            apply hne
            rw [← hcs, max_eq_right hle]
          · exact hlt2
        have h2 : maxLC cs ≤ c.tLastChange := by rw [← hcs]; exact le_of_lt hlt
        have h1 : maxLC (childDel cs t) ≤ c.tLastChange :=
          le_trans (maxLC_childDel_le cs t) h2
        rw [max_eq_left h1, max_eq_left h2]
      · rw [ih hcs hchcs]

/-- C7: album.addChild accepts only tracks — a non-track argument leaves the
album, the delta map and the invalidation flag untouched; for tracks, both
addChild and delChild preserve the invariant that the album's lastChange is
the maximum of its children's lastChange values (with floor 0, hence 0 when
childless, and the attained maximum whenever the children's lastChange
values are the non-negative unix times they are in practice); and whenever
lastChange changes, the order of every albumRef parent is invalidated. -/
theorem c7_album_lastchange (a : Album) (m : UpdMap) (t : ATrack) (oid : Int)
    (hinv : albumLCInv a) :
    albumAddChild a m (.notTrack oid) = ⟨a, m, false⟩ ∧
    ((∀ c ∈ a.children, ¬ c.tid = t.tid) →
      albumLCInv (albumAddChild a m (.isTrack t)).album) ∧
    ((albumAddChild a m (.isTrack t)).album.aLastChange ≠ a.aLastChange →
      (albumAddChild a m (.isTrack t)).invalidated = true) ∧
    ((∀ c ∈ a.children, c.tid = t.tid → c = t) →
      albumLCInv (albumDelChild a m t).album) ∧
    ((albumDelChild a m t).album.aLastChange ≠ a.aLastChange →
      (albumDelChild a m t).invalidated = true) ∧
    ((∀ c ∈ a.children, 0 ≤ c.tLastChange) → a.children ≠ [] →
      (∃ c ∈ a.children, a.aLastChange = c.tLastChange) ∧
      ∀ c ∈ a.children, c.tLastChange ≤ a.aLastChange) ∧
    (a.children = [] → a.aLastChange = 0) := by
  have hredA : albumAddChild a m (.isTrack t) =
      if a.aLastChange < t.tLastChange then
        ⟨⟨a.aid, childAdd a.children t, t.tLastChange⟩, traceUpdate m a.aid, true⟩
      else
        ⟨⟨a.aid, childAdd a.children t, a.aLastChange⟩, traceUpdate m a.aid, false⟩ := rfl
  have hredD : albumDelChild a m t =
      if t.tLastChange == a.aLastChange then
        ⟨⟨a.aid, childDel a.children t, maxLC (childDel a.children t)⟩, traceUpdate m a.aid, true⟩
      else
        ⟨⟨a.aid, childDel a.children t, a.aLastChange⟩, traceUpdate m a.aid, false⟩ := rfl
  rw [albumLCInv] at hinv
  refine ⟨rfl, ?_, ?_, ?_, ?_, ?_, ?_⟩
  · intro hfresh
    have hfr := childAdd_fresh a.children t hfresh
    rw [hredA]
    split
    · rename_i hlt
      show t.tLastChange = maxLC (childAdd a.children t)
      rw [hfr, maxLC_append_single, ← hinv, max_eq_right (le_of_lt hlt)]
    · rename_i hlt
      show a.aLastChange = maxLC (childAdd a.children t)
      rw [hfr, maxLC_append_single, ← hinv, max_eq_left (le_of_not_lt hlt)]
  · rw [hredA]
    split
    · intro _; rfl
    · intro h; exact absurd rfl h
  · intro hch
    rw [hredD]
    split
    · show maxLC (childDel a.children t) = maxLC (childDel a.children t)
      rfl
    · rename_i hbeq
      have hne : ¬ t.tLastChange = a.aLastChange := by simpa using hbeq
      show a.aLastChange = maxLC (childDel a.children t)
      rw [maxLC_del a.children t (hinv ▸ hne) hch, ← hinv]
  · rw [hredD]
    split
    · intro _; rfl
    · intro h; exact absurd rfl h
  · intro hnn hne
    constructor
    · obtain ⟨c, hc, hce⟩ := maxLC_attained a.children hnn hne
      exact ⟨c, hc, by rw [hinv, hce]⟩
    · intro c hc
      rw [hinv]
      exact maxLC_le a.children c hc
  · intro h
    rw [hinv, h]
    rfl

/-- C7 witness: a concrete album with one track; a non-track rejection, an
add that raises lastChange, and the max characterization. -/
theorem c7_album_lastchange_witness :
    albumLCInv ⟨1, [⟨10, 100⟩], 100⟩ ∧
    albumAddChild ⟨1, [⟨10, 100⟩], 100⟩ [] (.notTrack 99) = ⟨⟨1, [⟨10, 100⟩], 100⟩, [], false⟩ ∧
    albumLCInv (albumAddChild ⟨1, [⟨10, 100⟩], 100⟩ [] (.isTrack ⟨11, 200⟩)).album := by
  have hinv : albumLCInv ⟨1, [⟨10, 100⟩], 100⟩ := by
    show (100 : Int) = max 100 (maxLC [])
    rfl
  have h := c7_album_lastchange ⟨1, [⟨10, 100⟩], 100⟩ [] ⟨11, 200⟩ 99 hinv
  exact ⟨hinv, h.1, h.2.1 (by decide)⟩

mutual

/-- After resetUpdCount every container carries counter 0. -/
theorem allCtrZero_reset : ∀ n : CNode, allCtrZero (resetUpdCount n) = true
  | .ctr u children => by
    rw [resetUpdCount, allCtrZero, allChildrenZero_reset children]
    rfl
  | .itm => rfl

/-- After the child loop of resetUpdCount every container below is zero. -/
theorem allChildrenZero_reset : ∀ l : List CNode, allChildrenZero (resetChildren l) = true
  | [] => rfl
  | c :: cs => by
    rw [resetChildren, allChildrenZero, allChildrenZero_reset cs]
    by_cases hc : isCtr c = true
    · rw [if_pos hc, allCtrZero_reset c]
      rfl
    · rw [if_neg hc]
      cases c with
      | ctr u ch => exact absurd rfl hc
      | itm => rfl

end

/-- C9 (amended): ResetCtrUpdCounts zeroes the update counter of every
container reachable from the root, but it does not clear the update-count
delta map: updCounts — and with it the ContainerUpdateIDs string — is
unchanged (the delta map is re-created only at the start of the next update
cycle). -/
theorem c9_reset_ctr_upd_counts (st : ContentLite) :
    allCtrZero (resetCtrUpdCounts st).root = true ∧
    (resetCtrUpdCounts st).updCounts = st.updCounts ∧
    containerUpdateIDs (resetCtrUpdCounts st).updCounts = containerUpdateIDs st.updCounts :=
  ⟨allCtrZero_reset st.root, rfl, rfl⟩

/-- C9 counterexample: after ResetCtrUpdCounts on a state whose delta map
holds the entry 1 ↦ 3, ContainerUpdateIDs still returns "1,3", not the
empty string the claim promises. -/
theorem c9_reset_ctr_upd_counts_counterexample :
    containerUpdateIDs ((resetCtrUpdCounts ⟨.ctr 5 [], [(1, 3)]⟩).updCounts) = "1,3" ∧
    ("1,3" : String) ≠ "" := by
  refine ⟨?_, by decide⟩
  show containerUpdateIDs [(1, 3)] = "1,3"
  decide

/-- C10: delTrack invoked with a path that is not a key of the track map
returns nil and leaves the whole content state unchanged: the objects,
tracks, albums, playlists and folders maps, every container's child table
(part of the object table), the update-count delta map and the change
counter keep their previous values. -/
theorem c10_deltrack_missing (st : DState) (p : String)
    (h : assocGet st.tracks p = none) :
    delTrack st p = st ∧
    (delTrack st p).objects = st.objects ∧
    (delTrack st p).tracks = st.tracks ∧
    (delTrack st p).albums = st.albums ∧
    (delTrack st p).playlists = st.playlists ∧
    (delTrack st p).folders = st.folders ∧
    (delTrack st p).updCounts = st.updCounts ∧
    (delTrack st p).count = st.count := by
  have he : delTrack st p = st := by
    simp only [delTrack, h]
  exact ⟨he, by rw [he], by rw [he], by rw [he], by rw [he], by rw [he], by rw [he], by rw [he]⟩

/-- C10 witness: a concrete populated state and a missing path. -/
theorem c10_deltrack_missing_witness :
    assocGet [("/m/a.mp3", (⟨2, 7, 100, [3]⟩ : DTrack))] "/m/b.mp3" = none ∧
    delTrack
      ⟨[(1, ⟨1, none, [2], 0⟩)], [("/m/a.mp3", ⟨2, 7, 100, [3]⟩)], [(7, 4)], [], [],
        [(1, 1)], 4⟩ "/m/b.mp3"
      = ⟨[(1, ⟨1, none, [2], 0⟩)], [("/m/a.mp3", ⟨2, 7, 100, [3]⟩)], [(7, 4)], [], [],
        [(1, 1)], 4⟩ := by
  refine ⟨by decide, ?_⟩
  exact (c10_deltrack_missing
    ⟨[(1, ⟨1, none, [2], 0⟩)], [("/m/a.mp3", ⟨2, 7, 100, [3]⟩)], [(7, 4)], [], [],
      [(1, 1)], 4⟩ "/m/b.mp3" (by decide)).1

/-- C6: evaluation of the failing input.  newPlaylistInfo constructs a
trackInfo value (its source body is `trackInfo{newBaseInfo(path, lastChange)}`),
so the fileInfo built for a playlist file has kind() = infoTrack and the
kind dispatch of procUpdates routes it to the track handler, not to the
playlist handler as the claim states. -/
theorem c6_playlist_routed_to_track_handler :
    fileInfoKind (.ofTrack (newPlaylistInfo "/m/list.m3u" 0)) = .infoTrack ∧
    procUpdateDispatch true (.ofTrack (newPlaylistInfo "/m/list.m3u" 0)) = .trackHandler ∧
    UpdateHandler.trackHandler ≠ UpdateHandler.playlistHandler := by
  refine ⟨rfl, rfl, by decide⟩

end Muserv
